import Mathlib

/-!
Shallow embedding of the econometric estimation core of `econtools`
(`econtools/metrics/core.py` and `econtools/metrics/regutil.py`).

Machine floats are modelled by `ℚ` (the computations at issue are exact
rational arithmetic except where noted in individual doc comments);
Python `None` is `Option.none`; Python exceptions are `Except.error`.
-/

namespace Econtools

open scoped Matrix

/-- The seven admissible values of `vce_type` after `_set_vce_type` has
validated the caller's arguments (`core.py` line 325): `None`, `'robust'`,
`'hc1'`, `'hc2'`, `'hc3'`, `'cluster'`, `'shac'`. -/
inductive VceKind
| homosk
| robust
| hc1
| hc2
| hc3
| cluster
| shac
deriving DecidableEq, Repr

/-- `df_std` (`core.py` lines 804-807): `df = n - k`, `vce_correct = n / df`
(true division, from `__future__ import division`). -/
def df_std (n k : ℤ) : ℤ × ℚ :=
  (n - k, (n : ℚ) / ((n - k : ℤ) : ℚ))

/-- `df_hc23` (`core.py` lines 810-813): `df = n - k`, `vce_correct = 1`. -/
def df_hc23 (n k : ℤ) : ℤ × ℚ :=
  (n - k, 1)

/-- `len(pd.value_counts(cluster_id))` (`core.py` line 817): the number of
distinct values in the cluster column. -/
def numClusters (cluster_id : List ℚ) : ℕ :=
  cluster_id.dedup.length

/-- `df_cluster` (`core.py` lines 816-820): `g` distinct clusters,
`df = g - 1`, `vce_correct = ((n-1)/(n-k)) * (g/(g-1))`. -/
def df_cluster (n k : ℤ) (cluster_id : List ℚ) : ℤ × ℚ × ℕ :=
  ((numClusters cluster_id : ℤ) - 1,
   (((n : ℚ) - 1) / ((n : ℚ) - (k : ℚ)))
     * ((numClusters cluster_id : ℚ) / ((numClusters cluster_id : ℚ) - 1)),
   numClusters cluster_id)

/-- `df_shac` (`core.py` lines 823-826): `df = n - k`, `vce_correct = 1`. -/
def df_shac (n k : ℤ) : ℤ × ℚ :=
  (n - k, 1)

/-- `RegBase.set_dof` (`core.py` lines 256-279): dispatch on `vce_type` to
the `df_*` helpers, then store `df` and multiply the VCE matrix by
`vce_correct` (`self.results.vce *= vce_correct`).  Returns
`(df, vce_correct, stored vce)`. -/
def set_dof {m : ℕ} (vt : VceKind) (n k : ℤ) (cluster_id : List ℚ)
    (vce : Matrix (Fin m) (Fin m) ℚ) : ℤ × ℚ × Matrix (Fin m) (Fin m) ℚ :=
  match vt with
  | .homosk => ((df_std n k).1, (df_std n k).2, (df_std n k).2 • vce)
  | .robust => ((df_std n k).1, (df_std n k).2, (df_std n k).2 • vce)
  | .hc1 => ((df_std n k).1, (df_std n k).2, (df_std n k).2 • vce)
  | .hc2 => ((df_hc23 n k).1, (df_hc23 n k).2, (df_hc23 n k).2 • vce)
  | .hc3 => ((df_hc23 n k).1, (df_hc23 n k).2, (df_hc23 n k).2 • vce)
  | .cluster =>
      ((df_cluster n k cluster_id).1, (df_cluster n k cluster_id).2.1,
       (df_cluster n k cluster_id).2.1 • vce)
  | .shac => ((df_shac n k).1, (df_shac n k).2, (df_shac n k).2 • vce)

/-- `IVReg._liml` kappa selection (`core.py` lines 450-455).  `kappa_eig` is
the minimum-eigenvalue value computed by `_liml_kappa` before the overrides
are considered; the function returns the kappa actually used: an explicit
`_kappa_debug` override wins, else exact identification
(`x.shape[1] == z.shape[1]`) forces `kappa = 1`, else the eigenvalue-derived
value stands. -/
def liml_kappa_select (kappa_eig : ℚ) (kappa_debug : Option ℚ)
    (n_endog n_excl_instr : ℕ) : ℚ :=
  match kappa_debug with
  | some kd => kd
  | none => if n_endog = n_excl_instr then 1 else kappa_eig

/-- The tuple `valid_vce` of `_set_vce_type` (`core.py` line 325). -/
def valid_vce : List (Option String) :=
  [none, some "robust", some "hc1", some "hc2", some "hc3",
   some "cluster", some "shac"]

/-- `_set_vce_type` (`core.py` lines 322-341).  `cluster` / `shac` model the
truthiness of the corresponding keyword arguments.  Raising `ValueError` is
modelled by `Except.error`. -/
def set_vce_type (vce_type : Option String) (cluster shac : Bool) :
    Except String (Option String) :=
  if vce_type ∉ valid_vce then .error "VCE type is not supported"
  else if (cluster = true ∧ shac = true)
       ∨ (cluster = true ∧ vce_type ≠ some "cluster" ∧ vce_type ≠ none)
       ∨ (shac = true ∧ vce_type ≠ some "shac" ∧ vce_type ≠ none)
    then .error "VCE type conflict!"
  else if cluster then .ok (some "cluster")
  else if shac then .ok (some "shac")
  else .ok vce_type

/-- The symmetrization guard of `RegBase.get_vce` (`core.py` line 236):
`vce = (vce + vce.T) / 2`, elementwise. -/
def symmetrizeVce {m : ℕ} (M : Matrix (Fin m) (Fin m) ℚ) :
    Matrix (Fin m) (Fin m) ℚ :=
  Matrix.of fun i j => (M i j + Mᵀ i j) / 2

/-- `vce_homosk` (`core.py` lines 713-717): `s2 = resid·resid / N`,
`vce = s2 * xpx_inv`. -/
def vce_homosk {n m : ℕ} (xpx_inv : Matrix (Fin m) (Fin m) ℚ)
    (resid : Fin n → ℚ) : Matrix (Fin m) (Fin m) ℚ :=
  ((resid ⬝ᵥ resid) / (n : ℚ)) • xpx_inv

/-- `x.mul(resid, axis=0)` (`core.py` line 721): each row of `x` scaled by
the row's residual. -/
def xuMat {n m : ℕ} (x : Matrix (Fin n) (Fin m) ℚ) (resid : Fin n → ℚ) :
    Matrix (Fin n) (Fin m) ℚ :=
  Matrix.of fun i j => x i j * resid i

/-- `sandwich` (`core.py` lines 799-800). -/
def sandwich {m : ℕ} (left B right : Matrix (Fin m) (Fin m) ℚ) :
    Matrix (Fin m) (Fin m) ℚ :=
  left * B * right

/-- `vce_robust` (`core.py` lines 720-725). -/
def vce_robust {n m : ℕ} (xpx_inv : Matrix (Fin m) (Fin m) ℚ)
    (resid : Fin n → ℚ) (x : Matrix (Fin n) (Fin m) ℚ) :
    Matrix (Fin m) (Fin m) ℚ :=
  sandwich xpx_inv ((xuMat x resid)ᵀ * xuMat x resid) xpx_invᵀ

/-- `_get_h` (`core.py` lines 742-748): per-row leverage
`h_i = x_i · xpx_inv · x_i`. -/
def get_h {n m : ℕ} (x : Matrix (Fin n) (Fin m) ℚ)
    (xpx_inv : Matrix (Fin m) (Fin m) ℚ) : Fin n → ℚ :=
  fun i => (fun j => x i j) ⬝ᵥ (xpx_inv *ᵥ fun j => x i j)

/-- `vce_hc23` with `hctype='hc2'` (`core.py` lines 728-740): rows of `xu`
divided by `sqrt(1 - h_i)`.  The square root is irrational over `ℚ`, so the
per-row values `sqrt(1 - h_i)` are taken as the input `sqrt_one_sub_h`. -/
def vce_hc2 {n m : ℕ} (xpx_inv : Matrix (Fin m) (Fin m) ℚ)
    (resid : Fin n → ℚ) (x : Matrix (Fin n) (Fin m) ℚ)
    (sqrt_one_sub_h : Fin n → ℚ) : Matrix (Fin m) (Fin m) ℚ :=
  sandwich xpx_inv
    ((Matrix.of fun i j => xuMat x resid i j / sqrt_one_sub_h i)ᵀ
      * Matrix.of fun i j => xuMat x resid i j / sqrt_one_sub_h i)
    xpx_invᵀ

/-- `vce_hc23` with `hctype='hc3'` (`core.py` lines 728-740): rows of `xu`
divided by `1 - h_i`. -/
def vce_hc3 {n m : ℕ} (xpx_inv : Matrix (Fin m) (Fin m) ℚ)
    (resid : Fin n → ℚ) (x : Matrix (Fin n) (Fin m) ℚ) :
    Matrix (Fin m) (Fin m) ℚ :=
  sandwich xpx_inv
    ((Matrix.of fun i j => xuMat x resid i j / (1 - get_h x xpx_inv i))ᵀ
      * Matrix.of fun i j => xuMat x resid i j / (1 - get_h x xpx_inv i))
    xpx_invᵀ

/-- `vce_cluster` (`core.py` lines 751-760): score rows summed within
cluster (`np.bincount` over the factorized cluster id, here the assignment
`cl : Fin n → Fin g`) before the outer product. -/
def vce_cluster {n m g : ℕ} (xpx_inv : Matrix (Fin m) (Fin m) ℚ)
    (resid : Fin n → ℚ) (x : Matrix (Fin n) (Fin m) ℚ)
    (cl : Fin n → Fin g) : Matrix (Fin m) (Fin m) ℚ :=
  sandwich xpx_inv
    ((Matrix.of fun gi j => ∑ i, if cl i = gi then xuMat x resid i j else 0)ᵀ
      * Matrix.of fun gi j => ∑ i, if cl i = gi then xuMat x resid i j else 0)
    xpx_invᵀ

/-- `vce_shac` (`core.py` lines 763-769): `B = xu' (W xu)` where row `i` of
`W xu` is the kernel-weighted sum of score rows.  The kernel weights are
functions of Euclidean distances (irrational over `ℚ`), so the weight
matrix `W` is taken as an input. -/
def vce_shac {n m : ℕ} (xpx_inv : Matrix (Fin m) (Fin m) ℚ)
    (resid : Fin n → ℚ) (x : Matrix (Fin n) (Fin m) ℚ)
    (W : Matrix (Fin n) (Fin n) ℚ) : Matrix (Fin m) (Fin m) ℚ :=
  sandwich xpx_inv ((xuMat x resid)ᵀ * (W * xuMat x resid)) xpx_invᵀ

/-- `RegBase.get_vce` (`core.py` lines 208-240): dispatch on `vce_type` to a
raw VCE estimator, then apply the symmetrization guard
`vce = (vce + vce.T) / 2` before storing. -/
def get_vce_stored {n m g : ℕ} (vt : VceKind)
    (xpx_inv : Matrix (Fin m) (Fin m) ℚ) (resid : Fin n → ℚ)
    (x : Matrix (Fin n) (Fin m) ℚ) (sqrt_one_sub_h : Fin n → ℚ)
    (cl : Fin n → Fin g) (W : Matrix (Fin n) (Fin n) ℚ) :
    Matrix (Fin m) (Fin m) ℚ :=
  symmetrizeVce (match vt with
  | .homosk => vce_homosk xpx_inv resid
  | .robust => vce_robust xpx_inv resid x
  | .hc1 => vce_robust xpx_inv resid x
  | .hc2 => vce_hc2 xpx_inv resid x sqrt_one_sub_h
  | .hc3 => vce_hc3 xpx_inv resid x
  | .cluster => vce_cluster xpx_inv resid x cl
  | .shac => vce_shac xpx_inv resid x W)

/-- The `iv_method` dispatch of `IVReg.estimate` (`core.py` lines 409-420):
only `'2sls'` and `'liml'` are accepted; any other value reaches the
`raise` branch. -/
def iv_estimate_check (iv_method : String) : Except String Unit :=
  if iv_method = "2sls" then .ok ()
  else if iv_method = "liml" then .ok ()
  else .error "IV method not supported"

/-- `RegBase.main` (`core.py` lines 152-159) at the stage level:
`set_sample` runs unconditionally first; the `iv_method` validation sits
inside `estimate`, which is called second; on success the remaining stages
run.  The result is the list of stages entered before returning or raising,
with the error if one was raised. -/
def iv_main_trace (iv_method : String) : List String × Option String :=
  match iv_estimate_check iv_method with
  | .ok _ => (["set_sample", "estimate", "get_vce", "set_dof", "inference"],
              none)
  | .error e => (["set_sample"], some e)

/-- The statistics added to `Results` by `IVReg.estimate`
(`core.py` lines 426-428): `iv_method` always, `kappa` only under
`iv_method == 'liml'`. -/
def iv_result_stats (iv_method : String) : List String :=
  ["iv_method"] ++ (if iv_method = "liml" then ["kappa"] else [])

/-- Model of `numpy.linalg.inv` over `ℚ` via the adjugate formula (kept
computable; it agrees with Mathlib's nonsingular inverse, see
`matInv_eq_inv`). -/
def matInv {k : ℕ} (A : Matrix (Fin k) (Fin k) ℚ) :
    Matrix (Fin k) (Fin k) ℚ :=
  A.det⁻¹ • A.adjugate

/-- `fitguts` (`core.py` lines 508-519): `xpx_inv = inv(x'x)` and
`beta = xpx_inv · (x'y)`. -/
def fitguts_beta {n k : ℕ} (x : Matrix (Fin n) (Fin k) ℚ) (y : Fin n → ℚ) :
    Fin k → ℚ :=
  matInv (xᵀ * x) *ᵥ (xᵀ *ᵥ y)

/-- Residuals as computed in `RegBase.get_vce` (`core.py` lines 215-216):
`yhat = X_for_resid · beta`, `resid = y - yhat`; for OLS `X_for_resid`
is the regressor matrix itself. -/
def reg_resid {n k : ℕ} (x : Matrix (Fin n) (Fin k) ℚ) (y : Fin n → ℚ) :
    Fin n → ℚ :=
  y - x *ᵥ fitguts_beta x y

/-- Concrete 2×1 design matrix for the orthogonality witness. -/
def olsWitnessX : Matrix (Fin 2) (Fin 1) ℚ := !![1; 2]

/-- Concrete outcome vector for the orthogonality witness. -/
def olsWitnessY : Fin 2 → ℚ := ![1, 2]

/-- Distinct cluster values paired with the fixed-effect group `g` in the
joined `(cluster, group)` columns: the `(cluster, group)` pair levels whose
group component is `g` (`pair_counts` rows at group level `g`,
`core.py` lines 370-373). -/
def clustersOfGroup (cv av : List ℚ) (g : ℚ) : List ℚ :=
  ((List.zip cv av).filterMap fun p =>
    if p.2 = g then some p.1 else none).dedup

/-- `pair_counts.groupby(level=A.name).count().max()` (`core.py` lines
372-374): over the distinct group values, the largest number of distinct
clusters in which a single group appears.  (For empty columns, pandas
`max()` gives NaN which compares unequal to 1; the fold base 0 plays that
role.) -/
def maxClustersPerGroup (cv av : List ℚ) : ℕ :=
  (av.dedup.map fun g => (clustersOfGroup cv av g).length).foldr max 0

/-- `_fe_nested_in_cluster` (`core.py` lines 363-374): `False` when either
column is absent; `True` when the cluster key and group key are the same
column name; otherwise `True` exactly when the joined pair counts yield at
most one cluster per group (`num_of_clusters.max() == 1`). -/
def fe_nested_in_cluster (cluster_id A : Option (String × List ℚ)) : Bool :=
  match cluster_id, A with
  | none, _ => false
  | some _, none => false
  | some (cn, cv), some (an, av) =>
    if cn = an then true
    else decide (maxClustersPerGroup cv av = 1)

/-- Distinct group values paired with the cluster `c` — used only to state
the claim's version of the nesting check. -/
def groupsOfCluster (cv av : List ℚ) (c : ℚ) : List ℚ :=
  ((List.zip cv av).filterMap fun p =>
    if p.1 = c then some p.2 else none).dedup

/-- Modelled from the claim's words, not the source: nesting holds exactly
when the cluster key and group key are the identical column, or when every
cluster maps to exactly one group. -/
def fe_nested_claimed (cluster_id A : Option (String × List ℚ)) : Bool :=
  match cluster_id, A with
  | none, _ => false
  | some _, none => false
  | some (cn, cv), some (an, av) =>
    if cn = an then true
    else decide (∀ c ∈ cv.dedup, (groupsOfCluster cv av c).length = 1)

/-- The `K` computed by `RegBase._set_NK` (`core.py` lines 281-296):
starting from the column count of `x`, when fixed effects are absorbed `K`
grows by the number of distinct groups unless the groups are nested in
clusters. -/
def set_NK_K (x_cols : ℕ) (cluster_id A : Option (String × List ℚ)) : ℕ :=
  match A with
  | none => x_cols
  | some (an, av) =>
    if fe_nested_in_cluster cluster_id (some (an, av)) then x_cols
    else x_cols + av.dedup.length

/-- The differencing contrast matrix built by `Results.Ftest` with
`equal=True` (`core.py` lines 652-657): after the decrement `q -= 1`, the
matrix is `zeros((q, q+1))` with `R[i, i] = 1` and `R[i, i+1] = -1`. -/
def contrastEqual (q : ℕ) : Matrix (Fin q) (Fin (q + 1)) ℚ :=
  Matrix.of fun i j => if (j : ℕ) = (i : ℕ) then 1
    else if (j : ℕ) = (i : ℕ) + 1 then -1 else 0

/-- `f_test` (`core.py` lines 685-709): `Rbr = R·beta - r`,
`middle = la.inv(R·V·R')`, `df_n = matrix_rank(R)`,
`F = Rbr'·middle·Rbr / df_n`.  `numpy.linalg.inv` raises `LinAlgError` on
a singular input, modelled as `.error` (a 0×0 matrix inverts without
error; over a field singularity is `det = 0`).  With `df_n = 0`, numpy's
float division `0 / 0` then produces NaN with a warning instead of
raising; NaN is modelled as `.ok none`, an ordinary float as
`.ok (some _)`. -/
noncomputable def f_test_stat {q p : ℕ} (V : Matrix (Fin p) (Fin p) ℚ)
    (R : Matrix (Fin q) (Fin p) ℚ) (beta : Fin p → ℚ) (r : Fin q → ℚ) :
    Except String (Option ℚ) :=
  if (R * V * Rᵀ).det = 0 then .error "Singular matrix"
  else if R.rank = 0 then .ok none
  else .ok (some (((R *ᵥ beta - r) ⬝ᵥ ((R * V * Rᵀ)⁻¹ *ᵥ (R *ᵥ beta - r)))
    / (R.rank : ℚ)))

/-- `Results.Ftest` with `equal=True` on a selection of `q+1` columns
(`core.py` lines 647-663): `len(cols) = q+1` is decremented to `q`, the
contrast matrix is `contrastEqual q`, the null vector `r` is zero, and
`f_test` is called on the column-restricted `V` and `beta`. -/
noncomputable def Ftest_equal (q : ℕ)
    (V : Matrix (Fin (q + 1)) (Fin (q + 1)) ℚ) (beta : Fin (q + 1) → ℚ) :
    Except String (Option ℚ) :=
  f_test_stat V (contrastEqual q) beta (fun _ => 0)

/-- A store of column buffers.  A pandas Series or DataFrame column is a
reference (index) into the store, which makes in-place pandas mutation and
`.copy()` semantics explicit in the model. -/
structure ColStore where
  cols : List (List ℚ)

/-- Reading the buffer behind reference `i`. -/
def ColStore.read (s : ColStore) (i : ℕ) : List ℚ :=
  (s.cols.get? i).getD []

/-- Allocating a fresh buffer — what pandas `.copy()` does — returning the
grown store and the fresh reference. -/
def ColStore.alloc (s : ColStore) (v : List ℚ) : ColStore × ℕ :=
  (⟨s.cols ++ [v]⟩, s.cols.length)

/-- In-place overwrite of the buffer behind reference `i` — what a pandas
assignment to an existing column does. -/
def ColStore.write (s : ColStore) (i : ℕ) (v : List ℚ) : ColStore :=
  ⟨s.cols.set i v⟩

/-- A named frame: column names bound to store references. -/
abbrev Frame := List (String × ℕ)

/-- Name lookup in a frame (first binding wins, as in pandas). -/
def frameLookup (fr : Frame) (name : String) : Option ℕ :=
  match fr with
  | [] => none
  | (k, v) :: rest => if name = k then some v else frameLookup rest name

/-- Reference of a named column in the caller's frame (callers pass names
present in the frame; reads never mutate the store). -/
def frameRef (df : Frame) (name : String) : ℕ :=
  (frameLookup df name).getD 0

/-- `df.loc[sample, name]` row selection: keep the values at mask-true
rows. -/
def maskFilter (mask : List Bool) (v : List ℚ) : List ℚ :=
  (List.zip mask v).filterMap fun p => if p.1 then some p.2 else none

/-- `set_sample` / `_set_samp_core` (`regutil.py` lines 27-35): for each
requested name, `df.loc[sample, name].copy().reset_index(drop=True)` — a
masked extraction into a fresh buffer (the `.copy()`), with `None` names
passed through. -/
def set_sample_cols (df : Frame) (mask : List Bool)
    (names : List (Option String)) (s : ColStore) :
    ColStore × List (Option ℕ) :=
  match names with
  | [] => (s, [])
  | none :: rest =>
    let p := set_sample_cols df mask rest s
    (p.1, none :: p.2)
  | some nm :: rest =>
    let pa := s.alloc (maskFilter mask (s.read (frameRef df nm)))
    let p := set_sample_cols df mask rest pa.1
    (p.1, some pa.2 :: p.2)

/-- A pandas column assignment `fr[name] = v` (as in `x['_cons'] = _cons`,
`core.py` line 187): overwrite in place when the name already exists, else
bind a fresh buffer. -/
def frameAssign (s : ColStore) (fr : Frame) (name : String) (v : List ℚ) :
    ColStore × Frame :=
  match frameLookup fr name with
  | some i => (s.write i v, fr)
  | none =>
    let p := s.alloc v
    (p.1, fr ++ [(name, p.2)])

/-- Copy every column of a frame into fresh buffers — `Xhat = X.copy()` in
`IVReg._first_stage` (`core.py` line 432): the new frame binds the same
names to fresh references holding the same data. -/
def copyFrame : Frame → ColStore → ColStore × Frame
  | [], s => (s, [])
  | p :: rest, s =>
    let pa := s.alloc (s.read p.2)
    let pr := copyFrame rest pa.1
    (pr.1, (p.1, pa.2) :: pr.2)

/-- Sequential in-place column assignments `fr[nm] = f s nm`, one per name
— the loop `for an_x in x.columns: Xhat[an_x] = ...` of
`IVReg._first_stage` (`core.py` lines 434-437). -/
def assignFold (f : ColStore → String → List ℚ) :
    List String → ColStore → Frame → ColStore × Frame
  | [], s, fr => (s, fr)
  | nm :: rest, s, fr =>
    let p := frameAssign s fr nm (f s nm)
    assignFold f rest p.1 p.2

/-- A column buffer as a vector of the given length (absent entries 0). -/
def listToVec (n : ℕ) (v : List ℚ) : Fin n → ℚ := fun i => v.getD i.val 0

/-- Column buffers side by side as a design matrix with `n` rows. -/
def colsToMatrix (n : ℕ) (cols : List (List ℚ)) :
    Matrix (Fin n) (Fin cols.length) ℚ :=
  Matrix.of fun i j => (cols.getD j.val []).getD i.val 0

/-- One first-stage fitted column (`core.py` lines 435-437):
`pi_hat, _ = fitguts(this_x, Z)` followed by `np.dot(Z, pi_hat)`. -/
def fittedColumn (zcols : List (List ℚ)) (xcol : List ℚ) : List ℚ :=
  List.ofFn fun i : Fin xcol.length =>
    (colsToMatrix xcol.length zcols *ᵥ
      fitguts_beta (colsToMatrix xcol.length zcols)
        (listToVec xcol.length xcol)) i

/-- Store effects of `IVReg._first_stage` (`core.py` lines 430-438):
`Z = pd.concat((z, w), axis=1)` copies the instrument data out of the
store; `Xhat = X.copy()` copies every column of `X = concat(x, w)` into
fresh buffers; then each endogenous column of `Xhat` is overwritten in
place with its fitted values (read from the current store). -/
def first_stage_store (s : ColStore) (x_names : List String)
    (xfr wfr zfr : Frame) : ColStore × Frame :=
  let zcols := (zfr ++ wfr).map fun p => s.read p.2
  let pX := copyFrame (xfr ++ wfr) s
  assignFold
    (fun s2 nm => fittedColumn zcols (s2.read (frameRef xfr nm)))
    x_names pX.1 pX.2

/-- The `sample_cols_labels` name list of a `regress` call (`core.py`
lines 128-131): outcome, regressors, and the optional group, cluster,
spatial-x, spatial-y and weight columns, in extraction order. -/
def ols_sample_names (y_name : String) (x_names : List String)
    (a_name cluster shac_x shac_y awt_name : Option String) :
    List (Option String) :=
  [some y_name] ++ x_names.map some
    ++ [a_name, cluster, shac_x, shac_y, awt_name]

/-- The `sample_cols_labels` name list of an `ivreg` call: the OLS list
extended with the excluded instruments `z` and included exogenous `w`
(`core.py` lines 398-399). -/
def iv_sample_names (y_name : String) (x_names : List String)
    (a_name cluster shac_x shac_y awt_name : Option String)
    (z_names w_names : List String) : List (Option String) :=
  ols_sample_names y_name x_names a_name cluster shac_x shac_y awt_name
    ++ z_names.map some ++ w_names.map some

/-- `RegBase.set_sample` store effects for a `regress` call (`core.py`
lines 161-192): extract every needed column in `sample_cols_labels` order
through `set_sample`, each a `.copy()` into a fresh buffer; `astype`,
demeaning and weighting rebind attributes to newly built objects (no
store writes); and when there are no fixed effects and `addcons` is set,
assign the constant column of ones (length of the extracted `y`) into the
extracted `x` frame in place. -/
def ols_set_sample (df : Frame) (mask : List Bool) (y_name : String)
    (x_names : List String)
    (a_name cluster shac_x shac_y awt_name : Option String)
    (addcons : Bool) (s : ColStore) : ColStore × Frame :=
  let pe := set_sample_cols df mask
    (ols_sample_names y_name x_names a_name cluster shac_x shac_y awt_name) s
  let xframe : Frame :=
    List.zip x_names (((pe.2.drop 1).take x_names.length).filterMap id)
  if a_name.isNone && addcons then
    let yref := (pe.2.getD 0 none).getD 0
    let pc := frameAssign pe.1 xframe "_cons"
      (List.replicate ((pe.1.read yref).length) 1)
    (pc.1, pc.2)
  else
    (pe.1, xframe)

/-- Store effects of an `ivreg` call through sample building and
estimation (`core.py` lines 161-192, 393-401, 403-438): the IV subclass
also extracts the `z` and `w` columns, adds the constant into `w`
(`add_constant_to = 'w'`, `core.py` line 401), and under
`iv_method='2sls'` runs the first stage, which copies `X` and overwrites
the endogenous columns of the copy; LIML (`_liml`, `_liml_kappa`) builds
its systems from `pd.concat` copies and matrix products and performs no
in-place frame writes. -/
def iv_set_sample (df : Frame) (mask : List Bool) (y_name : String)
    (x_names z_names w_names : List String)
    (a_name cluster shac_x shac_y awt_name : Option String)
    (addcons : Bool) (iv_method : String) (s : ColStore) :
    ColStore × Frame :=
  let pe := set_sample_cols df mask
    (iv_sample_names y_name x_names a_name cluster shac_x shac_y awt_name
      z_names w_names) s
  let xframe : Frame :=
    List.zip x_names (((pe.2.drop 1).take x_names.length).filterMap id)
  let zframe : Frame :=
    List.zip z_names
      (((pe.2.drop (1 + x_names.length + 5)).take z_names.length).filterMap id)
  let wframe0 : Frame :=
    List.zip w_names
      ((pe.2.drop (1 + x_names.length + 5 + z_names.length)).filterMap id)
  let pcw :=
    if a_name.isNone && addcons then
      frameAssign pe.1 wframe0 "_cons"
        (List.replicate ((pe.1.read ((pe.2.getD 0 none).getD 0)).length) 1)
    else
      (pe.1, wframe0)
  if iv_method = "2sls" then
    first_stage_store pcw.1 x_names xframe pcw.2 zframe
  else
    (pcw.1, pcw.2)

/-- C1: for every estimation call, `set_dof` computes the residual degrees
of freedom and the scalar VCE correction per VCE kind exactly as claimed —
none/robust/HC1: `df = N-K`, `correct = N/(N-K)`; HC2/HC3: `df = N-K`,
`correct = 1`; cluster: `df = G-1` with `G` the number of distinct clusters
(independent of `N` and `K`), `correct = ((N-1)/(N-K))·(G/(G-1))`;
spatial-HAC: `df = N-K`, `correct = 1` — and the stored VCE is the raw VCE
multiplied by the correction. -/
theorem set_dof_matches_claim {m : ℕ} (n k : ℤ) (cl : List ℚ)
    (vce : Matrix (Fin m) (Fin m) ℚ) :
    (set_dof VceKind.homosk n k cl vce
      = (n - k, (n : ℚ) / ((n : ℚ) - (k : ℚ)),
         ((n : ℚ) / ((n : ℚ) - (k : ℚ))) • vce))
  ∧ (set_dof VceKind.robust n k cl vce
      = (n - k, (n : ℚ) / ((n : ℚ) - (k : ℚ)),
         ((n : ℚ) / ((n : ℚ) - (k : ℚ))) • vce))
  ∧ (set_dof VceKind.hc1 n k cl vce
      = (n - k, (n : ℚ) / ((n : ℚ) - (k : ℚ)),
         ((n : ℚ) / ((n : ℚ) - (k : ℚ))) • vce))
  ∧ (set_dof VceKind.hc2 n k cl vce = (n - k, 1, vce))
  ∧ (set_dof VceKind.hc3 n k cl vce = (n - k, 1, vce))
  ∧ (set_dof VceKind.cluster n k cl vce
      = ((numClusters cl : ℤ) - 1,
         (((n : ℚ) - 1) / ((n : ℚ) - (k : ℚ)))
           * ((numClusters cl : ℚ) / ((numClusters cl : ℚ) - 1)),
         ((((n : ℚ) - 1) / ((n : ℚ) - (k : ℚ)))
           * ((numClusters cl : ℚ) / ((numClusters cl : ℚ) - 1))) • vce))
  ∧ (∀ n2 k2 : ℤ, (set_dof VceKind.cluster n2 k2 cl vce).1
      = (set_dof VceKind.cluster n k cl vce).1)
  ∧ (set_dof VceKind.shac n k cl vce = (n - k, 1, vce))
  ∧ (∀ vt, (set_dof vt n k cl vce).2.2 = (set_dof vt n k cl vce).2.1 • vce) := by
  refine ⟨?_, ?_, ?_, ?_, ?_, ?_, ?_, ?_, ?_⟩
  · simp [set_dof, df_std]
  · simp [set_dof, df_std]
  · simp [set_dof, df_std]
  · simp [set_dof, df_hc23]
  · simp [set_dof, df_hc23]
  · simp [set_dof, df_cluster]
  · intro n2 k2
    simp [set_dof, df_cluster]
  · simp [set_dof, df_shac]
  · intro vt
    cases vt <;> rfl

/-- C2: the LIML kappa is chosen by strict precedence — an explicit debug
override wins outright, at every identification count (exactly identified
included); otherwise exact identification (as many excluded instruments as
endogenous regressors) forces `kappa = 1`; otherwise the eigenvalue-derived
value from `_liml_kappa` stands. -/
theorem liml_kappa_precedence (e kd : ℚ) (nx nz : ℕ) (h : nx ≠ nz) :
    (∀ nx2 nz2 : ℕ, liml_kappa_select e (some kd) nx2 nz2 = kd)
  ∧ liml_kappa_select e none nx nx = 1
  ∧ liml_kappa_select e none nx nz = e := by
  refine ⟨fun nx2 nz2 => rfl, ?_, ?_⟩
  · simp [liml_kappa_select]
  · simp [liml_kappa_select, h]

/-- Witness for C2 at `eig = 5`, override `7`, covering the override under
exact identification (3 = 3) and under over-identification (1 ≠ 2), the
forced `kappa = 1`, and the eigenvalue fallback. -/
theorem liml_kappa_precedence_witness :
    liml_kappa_select 5 (some 7) 3 3 = 7
  ∧ liml_kappa_select 5 (some 7) 1 2 = 7
  ∧ liml_kappa_select 5 none 1 1 = 1
  ∧ liml_kappa_select 5 none 1 2 = 5 := by
  obtain ⟨h1, h2, h3⟩ := liml_kappa_precedence 5 7 1 2 (by decide)
  exact ⟨h1 3 3, h1 1 2, h2, h3⟩

/-- C4: `_set_vce_type` validation — cluster together with shac errors; an
explicit `vce_type` different from `'cluster'` alongside a cluster key
errors; an explicit `vce_type` different from `'shac'` alongside a shac
config errors; a `vce_type` outside the valid set errors; a cluster key
alone yields `'cluster'`; a shac config alone yields `'shac'`; a valid
`vce_type` with neither passes through. -/
theorem set_vce_type_spec (vt : Option String) :
    (∃ e, set_vce_type vt true true = .error e)
  ∧ (vt ≠ none → vt ≠ some "cluster" →
      ∃ e, set_vce_type vt true false = .error e)
  ∧ (vt ≠ none → vt ≠ some "shac" →
      ∃ e, set_vce_type vt false true = .error e)
  ∧ (vt ∉ valid_vce → ∃ e, set_vce_type vt false false = .error e)
  ∧ (vt = none ∨ vt = some "cluster" →
      set_vce_type vt true false = .ok (some "cluster"))
  ∧ (vt = none ∨ vt = some "shac" →
      set_vce_type vt false true = .ok (some "shac"))
  ∧ (vt ∈ valid_vce → set_vce_type vt false false = .ok vt) := by
  refine ⟨?_, ?_, ?_, ?_, ?_, ?_, ?_⟩
  · by_cases hv : vt ∈ valid_vce <;> simp [set_vce_type, hv]
  · intro h1 h2
    by_cases hv : vt ∈ valid_vce <;> simp [set_vce_type, hv, h1, h2]
  · intro h1 h2
    by_cases hv : vt ∈ valid_vce <;> simp [set_vce_type, hv, h1, h2]
  · intro h
    simp [set_vce_type, h]
  · rintro (rfl | rfl) <;> rfl
  · rintro (rfl | rfl) <;> rfl
  · intro h
    simp [valid_vce] at h
    rcases h with rfl | rfl | rfl | rfl | rfl | rfl | rfl <;> rfl

/-- Witness for C4 at `vce_type = some "hc2"` (and concrete cases for the
implication-free clauses). -/
theorem set_vce_type_spec_witness :
    (∃ e, set_vce_type (some "hc2") true true = .error e)
  ∧ (some "hc2" ≠ none → some "hc2" ≠ some "cluster" →
      ∃ e, set_vce_type (some "hc2") true false = .error e)
  ∧ (some "hc2" ≠ none → some "hc2" ≠ some "shac" →
      ∃ e, set_vce_type (some "hc2") false true = .error e)
  ∧ (some "hc2" ∉ valid_vce → ∃ e, set_vce_type (some "hc2") false false = .error e)
  ∧ (some "hc2" = none ∨ some "hc2" = some "cluster" →
      set_vce_type (some "hc2") true false = .ok (some "cluster"))
  ∧ (some "hc2" = none ∨ some "hc2" = some "shac" →
      set_vce_type (some "hc2") false true = .ok (some "shac"))
  ∧ (some "hc2" ∈ valid_vce → set_vce_type (some "hc2") false false = .ok (some "hc2")) :=
  set_vce_type_spec (some "hc2")

/-- Transposing the symmetrized matrix gives it back. -/
theorem symmetrizeVce_transpose {m : ℕ} (M : Matrix (Fin m) (Fin m) ℚ) :
    (symmetrizeVce M)ᵀ = symmetrizeVce M := by
  ext i j
  simp [symmetrizeVce, Matrix.transpose_apply, add_comm]

/-- C5: for every VCE kind, the stored variance-covariance matrix is
symmetric, because `get_vce` averages the raw estimator with its transpose
before storing it. -/
theorem get_vce_stored_symmetric {n m g : ℕ} (vt : VceKind)
    (xpx_inv : Matrix (Fin m) (Fin m) ℚ) (resid : Fin n → ℚ)
    (x : Matrix (Fin n) (Fin m) ℚ) (sqrt_one_sub_h : Fin n → ℚ)
    (cl : Fin n → Fin g) (W : Matrix (Fin n) (Fin n) ℚ) :
    (get_vce_stored vt xpx_inv resid x sqrt_one_sub_h cl W)ᵀ
      = get_vce_stored vt xpx_inv resid x sqrt_one_sub_h cl W := by
  unfold get_vce_stored
  exact symmetrizeVce_transpose _

/-- C7 counterexample: with the unsupported IV method `"gmm"`, the call
does fail, but the `set_sample` stage has already run when the error is
raised — the validation is not at call entry, contradicting the claim that
it precedes sample building. -/
theorem iv_invalid_method_cex :
    ((iv_main_trace "gmm").2).isSome = true
  ∧ "set_sample" ∈ (iv_main_trace "gmm").1 := by decide

/-- C7 amended: for every IV method other than `'2sls'` and `'liml'`, the
call fails with the unsupported-method error, raised inside the `estimate`
stage after sample building and before any estimation linear algebra. -/
theorem iv_invalid_method_after_sample (m : String) (h1 : m ≠ "2sls")
    (h2 : m ≠ "liml") :
    iv_main_trace m = (["set_sample"], some "IV method not supported") := by
  simp [iv_main_trace, iv_estimate_check, h1, h2]

/-- Witness for the amended C7 at method `"ols"`. -/
theorem iv_invalid_method_after_sample_witness :
    iv_main_trace "ols" = (["set_sample"], some "IV method not supported") :=
  iv_invalid_method_after_sample "ols" (by decide) (by decide)

/-- C8: `IVReg.estimate` always records `iv_method`, but records `kappa`
only under LIML — a 2SLS result has no `kappa` attribute, contradicting
the published docstring (`kappa ... always 1 if iv_method='2sls'`). -/
theorem iv_2sls_kappa_missing :
    "iv_method" ∈ iv_result_stats "2sls"
  ∧ "kappa" ∉ iv_result_stats "2sls"
  ∧ "kappa" ∈ iv_result_stats "liml" := by decide

/-- Adjugate-based inverse agrees with Mathlib's matrix inverse over `ℚ`. -/
theorem matInv_eq_inv {k : ℕ} (A : Matrix (Fin k) (Fin k) ℚ) :
    matInv A = A⁻¹ := by
  rw [matInv, Matrix.inv_def, Ring.inverse_eq_inv]

/-- C6: for OLS with no absorption and no weights, when the Gram matrix
`X'X` is invertible the residual vector is orthogonal to every regressor
column: `X'·(y - X·beta) = 0`. -/
theorem ols_orthogonality {n k : ℕ} (x : Matrix (Fin n) (Fin k) ℚ)
    (y : Fin n → ℚ) (h : IsUnit (xᵀ * x).det) :
    xᵀ *ᵥ reg_resid x y = 0 := by
  unfold reg_resid fitguts_beta
  rw [matInv_eq_inv, Matrix.mulVec_sub, Matrix.mulVec_mulVec,
      Matrix.mulVec_mulVec, Matrix.mul_nonsing_inv _ h, Matrix.one_mulVec,
      sub_self]

/-- Witness for C6 on the concrete design `x = [1; 2]`, `y = (1, 2)`. -/
theorem ols_orthogonality_witness :
    IsUnit ((olsWitnessXᵀ * olsWitnessX).det)
  ∧ olsWitnessXᵀ *ᵥ reg_resid olsWitnessX olsWitnessY = 0 := by
  have hd : IsUnit ((olsWitnessXᵀ * olsWitnessX).det) := by
    have h5 : (olsWitnessXᵀ * olsWitnessX).det = 5 := by
      rw [Matrix.det_fin_one]
      simp [olsWitnessX, Matrix.mul_apply, Fin.sum_univ_two,
            Matrix.transpose_apply, Matrix.vecHead, Matrix.vecTail]
      norm_num
    rw [h5]
    exact isUnit_iff_ne_zero.mpr (by norm_num)
  exact ⟨hd, ols_orthogonality olsWitnessX olsWitnessY hd⟩

/-- C10: calling `Results.Ftest` with exactly one column and `equal=True`
builds a contrast matrix with zero rows, whose rank — the F-statistic's
denominator — is zero, so (the 0×0 `la.inv` having succeeded) the division
is `0/0` and the caller receives NaN (`.ok none`) rather than an
exception; with at least two columns, whenever the restricted `R·V·R'` is
nonsingular (so `la.inv` does not raise), the rank is nonzero and an
ordinary F value (`.ok (some _)`) is produced. -/
theorem ftest_single_column_equal_nan (V : Matrix (Fin 1) (Fin 1) ℚ)
    (beta : Fin 1 → ℚ) (q : ℕ) (hq : 1 ≤ q)
    (V2 : Matrix (Fin (q + 1)) (Fin (q + 1)) ℚ) (beta2 : Fin (q + 1) → ℚ)
    (hV2 : (contrastEqual q * V2 * (contrastEqual q)ᵀ).det ≠ 0) :
    (contrastEqual 0).rank = 0
  ∧ Ftest_equal 0 V beta = .ok none
  ∧ (∃ v, Ftest_equal q V2 beta2 = .ok (some v)) := by
  have h0 : (contrastEqual 0).rank = 0 :=
    Nat.le_zero.mp (le_trans (Matrix.rank_le_card_height _) (by simp))
  have hdet0 : (contrastEqual 0 * V * (contrastEqual 0)ᵀ).det = 1 :=
    Matrix.det_isEmpty
  have hne : (contrastEqual q).rank ≠ 0 := by
    intro hzero
    have hbot : LinearMap.range (contrastEqual q).mulVecLin = ⊥ :=
      Submodule.finrank_eq_zero.mp hzero
    have hmap : (contrastEqual q).mulVecLin = 0 := LinearMap.range_eq_bot.mp hbot
    have hv : (contrastEqual q).mulVecLin (Pi.single ⟨0, by omega⟩ 1) = 0 := by
      rw [hmap]
      rfl
    have hrow := congrFun hv (⟨0, hq⟩ : Fin q)
    rw [Matrix.mulVecLin_apply, Matrix.mulVec_single] at hrow
    simp [contrastEqual] at hrow
  refine ⟨h0, ?_, ?_⟩
  · simp [Ftest_equal, f_test_stat, h0, hdet0]
  · unfold Ftest_equal f_test_stat
    rw [if_neg hV2, if_neg hne]
    exact ⟨_, rfl⟩

/-- Witness for C10 at `q = 1` (two columns) with identity `V` matrices
and zero coefficient vectors; the restricted `R·V·R'` there is the 1×1
matrix `[2]`, nonsingular. -/
theorem ftest_single_column_equal_nan_witness :
    (contrastEqual 0).rank = 0
  ∧ Ftest_equal 0 (1 : Matrix (Fin 1) (Fin 1) ℚ) (fun _ => 0) = .ok none
  ∧ (∃ v, Ftest_equal 1 (1 : Matrix (Fin 2) (Fin 2) ℚ) (fun _ => 0)
      = .ok (some v)) := by
  have hdet : (contrastEqual 1 * (1 : Matrix (Fin 2) (Fin 2) ℚ)
      * (contrastEqual 1)ᵀ).det ≠ 0 := by
    have h2 : (contrastEqual 1 * (1 : Matrix (Fin 2) (Fin 2) ℚ)
        * (contrastEqual 1)ᵀ).det = 2 := by
      rw [Matrix.mul_one, Matrix.det_fin_one]
      simp [contrastEqual, Matrix.mul_apply, Fin.sum_univ_two,
            Matrix.transpose_apply]
      norm_num
    rw [h2]
    norm_num
  exact ftest_single_column_equal_nan 1 (fun _ => 0) 1 (by decide) 1
    (fun _ => 0) hdet

/-- Every member of a list of naturals is at most its `foldr max 0`. -/
theorem elem_le_foldr_max (l : List ℕ) : ∀ x ∈ l, x ≤ l.foldr max 0 := by
  induction l with
  | nil =>
    intro x hx
    cases hx
  | cons a t ih =>
    intro x hx
    rcases List.mem_cons.mp hx with rfl | hx2
    · exact le_max_left _ _
    · exact le_trans (ih x hx2) (le_max_right _ _)

/-- For a nonempty list of positive naturals, the max is 1 iff every
member is 1. -/
theorem foldr_max_eq_one :
    ∀ l : List ℕ, l ≠ [] → (∀ x ∈ l, 1 ≤ x) →
      (l.foldr max 0 = 1 ↔ ∀ x ∈ l, x = 1) := by
  intro l
  induction l with
  | nil =>
    intro hne
    exact absurd rfl hne
  | cons a t ih =>
    intro _ h1
    cases t with
    | nil => simp
    | cons b t2 =>
      have ha : 1 ≤ a := h1 a (by simp)
      have hf : 1 ≤ (b :: t2).foldr max 0 :=
        le_trans (h1 b (by simp)) (elem_le_foldr_max _ b (by simp))
      have iht := ih (by simp) (fun x hx => h1 x (List.mem_cons_of_mem _ hx))
      constructor
      · intro hm
        have ha1 : a = 1 := le_antisymm (hm ▸ le_max_left _ _) ha
        have hf1 : (b :: t2).foldr max 0 = 1 :=
          le_antisymm (hm ▸ le_max_right _ _) hf
        intro x hx
        rcases List.mem_cons.mp hx with rfl | hx2
        · exact ha1
        · exact iht.mp hf1 x hx2
      · intro hall
        have ha1 : a = 1 := hall a (by simp)
        have hf1 : (b :: t2).foldr max 0 = 1 :=
          iht.mpr (fun x hx => hall x (List.mem_cons_of_mem _ hx))
        simp [List.foldr_cons, hf1] at ha1 ⊢
        simp [ha1, hf1]

/-- Every group value appearing in `av` appears in the zipped
`(cluster, group)` pairs when the columns have equal length. -/
theorem exists_pair_of_mem :
    ∀ cv av : List ℚ, cv.length = av.length →
      ∀ g ∈ av, ∃ c, (c, g) ∈ List.zip cv av := by
  intro cv
  induction cv with
  | nil =>
    intro av hlen g hg
    cases av with
    | nil => cases hg
    | cons b bt => simp at hlen
  | cons c ct ih =>
    intro av hlen g hg
    cases av with
    | nil => cases hg
    | cons b bt =>
      rcases List.mem_cons.mp hg with rfl | hg2
      · exact ⟨c, by simp [List.zip_cons_cons]⟩
      · have hlen2 : ct.length = bt.length := by simpa using hlen
        obtain ⟨c2, hc2⟩ := ih bt hlen2 g hg2
        exact ⟨c2, by simp [List.zip_cons_cons, hc2]⟩

/-- A group present in the (equal-length) columns is paired with at least
one cluster. -/
theorem clustersOfGroup_len_pos (cv av : List ℚ)
    (hlen : cv.length = av.length) (g : ℚ) (hg : g ∈ av) :
    1 ≤ (clustersOfGroup cv av g).length := by
  obtain ⟨c, hc⟩ := exists_pair_of_mem cv av hlen g hg
  have hcf : c ∈ (List.zip cv av).filterMap
      (fun p => if p.2 = g then some p.1 else none) :=
    List.mem_filterMap.mpr ⟨(c, g), hc, by simp⟩
  have hmem : c ∈ clustersOfGroup cv av g := List.mem_dedup.mpr hcf
  exact List.length_pos.mpr (List.ne_nil_of_mem hmem)

/-- C3 counterexample: with cluster column `[1, 1]` (name `clu`) and
fixed-effect column `[1, 2]` (name `fe`), the code's nesting check returns
`True` (each group lies in exactly one cluster) and makes no `K`
adjustment, while the claim's rule — every cluster maps to exactly one
group — returns `False` and would adjust `K`; the claim's "exactly when"
is false on the code. -/
theorem fe_nested_direction_cex :
    fe_nested_in_cluster (some ("clu", [1, 1])) (some ("fe", [1, 2])) = true
  ∧ fe_nested_claimed (some ("clu", [1, 1])) (some ("fe", [1, 2])) = false
  ∧ set_NK_K 1 (some ("clu", [1, 1])) (some ("fe", [1, 2])) = 1 := by decide

/-- C3 amended: with distinct key names and equal-length nonempty columns,
the code's nesting check holds exactly when every fixed-effect group maps
to exactly one cluster (not the other way around); identical key names
always count as nested; and `K` grows by the number of distinct groups
exactly when the check fails. -/
theorem fe_nesting_amended (cn an : String) (cv av : List ℚ) (xc : ℕ)
    (hne : av ≠ []) (hlen : cv.length = av.length) (hname : cn ≠ an) :
    (fe_nested_in_cluster (some (cn, cv)) (some (an, av)) = true
      ↔ ∀ g ∈ av.dedup, (clustersOfGroup cv av g).length = 1)
  ∧ (∀ cv2 av2 : List ℚ,
      fe_nested_in_cluster (some (cn, cv2)) (some (cn, av2)) = true)
  ∧ (fe_nested_in_cluster (some (cn, cv)) (some (an, av)) = true →
      set_NK_K xc (some (cn, cv)) (some (an, av)) = xc)
  ∧ (fe_nested_in_cluster (some (cn, cv)) (some (an, av)) = false →
      set_NK_K xc (some (cn, cv)) (some (an, av)) = xc + av.dedup.length) := by
  refine ⟨?_, ?_, ?_, ?_⟩
  · have hstep : fe_nested_in_cluster (some (cn, cv)) (some (an, av))
        = decide (maxClustersPerGroup cv av = 1) := by
      simp [fe_nested_in_cluster, hname]
    rw [hstep, decide_eq_true_iff]
    obtain ⟨a, t, rfl⟩ : ∃ a t, av = a :: t := by
      cases av with
      | nil => exact absurd rfl hne
      | cons a t => exact ⟨a, t, rfl⟩
    have hdne : (a :: t).dedup ≠ [] :=
      List.ne_nil_of_mem (List.mem_dedup.mpr (List.mem_cons_self a t))
    have hmapne :
        ((a :: t).dedup.map fun g =>
          (clustersOfGroup cv (a :: t) g).length) ≠ [] := by
      intro h
      exact hdne (List.map_eq_nil_iff.mp h)
    have hpos : ∀ x ∈ (a :: t).dedup.map
        (fun g => (clustersOfGroup cv (a :: t) g).length), 1 ≤ x := by
      intro x hx
      obtain ⟨g, hg, rfl⟩ := List.mem_map.mp hx
      exact clustersOfGroup_len_pos cv (a :: t) hlen g (List.mem_dedup.mp hg)
    unfold maxClustersPerGroup
    rw [foldr_max_eq_one _ hmapne hpos]
    constructor
    · intro h g hg
      exact h _ (List.mem_map.mpr ⟨g, hg, rfl⟩)
    · intro h x hx
      obtain ⟨g, hg, rfl⟩ := List.mem_map.mp hx
      exact h g hg
  · intro cv2 av2
    simp [fe_nested_in_cluster]
  · intro h
    simp [set_NK_K, h]
  · intro h
    simp [set_NK_K, h]

/-- Witness for the amended C3 at cluster column `[3, 4]` (name `c1`),
group column `[7, 7]` (name `a1`), base `K = 3`. -/
theorem fe_nesting_amended_witness :
    (fe_nested_in_cluster (some ("c1", [3, 4])) (some ("a1", [7, 7])) = true
      ↔ ∀ g ∈ ([7, 7] : List ℚ).dedup,
          (clustersOfGroup [3, 4] [7, 7] g).length = 1)
  ∧ (∀ cv2 av2 : List ℚ,
      fe_nested_in_cluster (some ("c1", cv2)) (some ("c1", av2)) = true)
  ∧ (fe_nested_in_cluster (some ("c1", [3, 4])) (some ("a1", [7, 7])) = true →
      set_NK_K 3 (some ("c1", [3, 4])) (some ("a1", [7, 7])) = 3)
  ∧ (fe_nested_in_cluster (some ("c1", [3, 4])) (some ("a1", [7, 7])) = false →
      set_NK_K 3 (some ("c1", [3, 4])) (some ("a1", [7, 7]))
        = 3 + ([7, 7] : List ℚ).dedup.length) :=
  fe_nesting_amended "c1" "a1" [3, 4] [7, 7] 3 (by decide) (by decide)
    (by decide)

/-- Allocation preserves every existing buffer. -/
theorem read_alloc_of_lt (s : ColStore) (v : List ℚ) (i : ℕ)
    (h : i < s.cols.length) : ((s.alloc v).1).read i = s.read i := by
  simp [ColStore.alloc, ColStore.read, List.get?_eq_getElem?,
        List.getElem?_append_left h]

/-- Writing one reference leaves every other reference unchanged. -/
theorem read_write_of_ne (s : ColStore) (j : ℕ) (v : List ℚ) (i : ℕ)
    (h : j ≠ i) : (s.write j v).read i = s.read i := by
  simp [ColStore.write, ColStore.read, List.get?_eq_getElem?,
        List.getElem?_set_ne h]

/-- A successful frame lookup is a binding of the frame. -/
theorem frameLookup_mem : ∀ (fr : Frame) (name : String) (j : ℕ),
    frameLookup fr name = some j → (name, j) ∈ fr := by
  intro fr
  induction fr with
  | nil =>
    intro name j h
    simp [frameLookup] at h
  | cons p rest ih =>
    intro name j h
    by_cases he : name = p.1
    · subst he
      rw [show p = (p.1, p.2) from rfl, frameLookup, if_pos rfl] at h
      injection h with h2
      subst h2
      exact List.mem_cons_self _ _
    · rw [show p = (p.1, p.2) from rfl, frameLookup, if_neg he] at h
      exact List.mem_cons_of_mem _ (ih name j h)

/-- The extraction loop of `set_sample` only allocates: existing buffers
read back unchanged, the store only grows, and every reference it returns
is fresh. -/
theorem set_sample_cols_invariant (df : Frame) (mask : List Bool) :
    ∀ (names : List (Option String)) (s : ColStore),
      (∀ i, i < s.cols.length →
        ((set_sample_cols df mask names s).1).read i = s.read i)
    ∧ s.cols.length ≤ ((set_sample_cols df mask names s).1).cols.length
    ∧ (∀ j, some j ∈ (set_sample_cols df mask names s).2 →
        s.cols.length ≤ j) := by
  intro names
  induction names with
  | nil =>
    intro s
    refine ⟨fun i _ => rfl, le_refl _, fun j hj => ?_⟩
    simp [set_sample_cols] at hj
  | cons hd rest ih =>
    intro s
    cases hd with
    | none =>
      obtain ⟨ih1, ih2, ih3⟩ := ih s
      refine ⟨?_, ?_, ?_⟩
      · intro i hi
        simpa [set_sample_cols] using ih1 i hi
      · simpa [set_sample_cols] using ih2
      · intro j hj
        simp [set_sample_cols] at hj
        exact ih3 j hj
    | some nm =>
      obtain ⟨ih1, ih2, ih3⟩ :=
        ih (s.alloc (maskFilter mask (s.read (frameRef df nm)))).1
      have hlen : (s.alloc (maskFilter mask
          (s.read (frameRef df nm)))).1.cols.length = s.cols.length + 1 := by
        simp [ColStore.alloc]
      refine ⟨?_, ?_, ?_⟩
      · intro i hi
        have hi2 : i < (s.alloc (maskFilter mask
            (s.read (frameRef df nm)))).1.cols.length := by omega
        have e1 : ((set_sample_cols df mask (some nm :: rest) s).1).read i
            = ((set_sample_cols df mask rest (s.alloc (maskFilter mask
                (s.read (frameRef df nm)))).1).1).read i := by
          simp [set_sample_cols]
        rw [e1, ih1 i hi2, read_alloc_of_lt s _ i hi]
      · have e1 : ((set_sample_cols df mask (some nm :: rest) s).1)
            = (set_sample_cols df mask rest (s.alloc (maskFilter mask
                (s.read (frameRef df nm)))).1).1 := by
          simp [set_sample_cols]
        rw [e1]
        omega
      · intro j hj
        simp [set_sample_cols] at hj
        rcases hj with hj1 | hj2
        · simp [ColStore.alloc] at hj1
          omega
        · have := ih3 j hj2
          omega

/-- A frame assignment to a frame whose references all sit at or above a
bound preserves every buffer below the bound, keeps the store at least as
long, and keeps the frame's references at or above the bound. -/
theorem frameAssign_invariant (B : ℕ) (s : ColStore) (fr : Frame)
    (name : String) (v : List ℚ) (hB : B ≤ s.cols.length)
    (hfr : ∀ p ∈ fr, B ≤ p.2) :
    (∀ i, i < B → ((frameAssign s fr name v).1).read i = s.read i)
  ∧ B ≤ ((frameAssign s fr name v).1).cols.length
  ∧ ∀ p ∈ (frameAssign s fr name v).2, B ≤ p.2 := by
  cases hl : frameLookup fr name with
  | some j =>
    have hj : B ≤ j := hfr (name, j) (frameLookup_mem fr name j hl)
    refine ⟨?_, ?_, ?_⟩
    · intro i hi
      simp only [frameAssign, hl]
      exact read_write_of_ne s j v i (by omega)
    · simp only [frameAssign, hl, ColStore.write]
      simpa [List.length_set] using hB
    · intro p hp
      simp only [frameAssign, hl] at hp
      exact hfr p hp
  | none =>
    refine ⟨?_, ?_, ?_⟩
    · intro i hi
      simp only [frameAssign, hl]
      exact read_alloc_of_lt s v i (by omega)
    · simp only [frameAssign, hl, ColStore.alloc]
      simp only [List.length_append, List.length_cons, List.length_nil]
      omega
    · intro p hp
      simp only [frameAssign, hl] at hp
      rcases List.mem_append.mp hp with hp1 | hp2
      · exact hfr p hp1
      · simp only [List.mem_singleton] at hp2
        subst hp2
        simpa [ColStore.alloc] using hB

/-- `X.copy()` only allocates: buffers read back unchanged, the store
grows, and the copied frame's references are all fresh. -/
theorem copyFrame_invariant :
    ∀ (fr : Frame) (s : ColStore),
      (∀ i, i < s.cols.length → ((copyFrame fr s).1).read i = s.read i)
    ∧ s.cols.length ≤ ((copyFrame fr s).1).cols.length
    ∧ ∀ p ∈ (copyFrame fr s).2, s.cols.length ≤ p.2 := by
  intro fr
  induction fr with
  | nil =>
    intro s
    exact ⟨fun i _ => rfl, le_rfl, by simp [copyFrame]⟩
  | cons q rest ih =>
    intro s
    obtain ⟨g1, g2, g3⟩ := ih (s.alloc (s.read q.2)).1
    have hlen : (s.alloc (s.read q.2)).1.cols.length = s.cols.length + 1 := by
      simp [ColStore.alloc]
    have e : copyFrame (q :: rest) s
        = ((copyFrame rest (s.alloc (s.read q.2)).1).1,
           (q.1, (s.alloc (s.read q.2)).2)
             :: (copyFrame rest (s.alloc (s.read q.2)).1).2) := rfl
    refine ⟨?_, ?_, ?_⟩
    · intro i hi
      rw [e]
      exact (g1 i (by omega)).trans (read_alloc_of_lt s _ i hi)
    · rw [e]
      exact le_trans (by omega) g2
    · intro p hp
      rw [e] at hp
      rcases List.mem_cons.mp hp with hp1 | hp2
      · subst hp1
        simp [ColStore.alloc]
      · have := g3 p hp2
        omega

/-- The first-stage assignment loop, run on a frame whose references all
sit at or above a bound, preserves every buffer below the bound. -/
theorem assignFold_invariant (f : ColStore → String → List ℚ) :
    ∀ (names : List String) (B : ℕ) (s : ColStore) (fr : Frame),
      B ≤ s.cols.length → (∀ p ∈ fr, B ≤ p.2) →
      (∀ i, i < B → ((assignFold f names s fr).1).read i = s.read i)
    ∧ B ≤ ((assignFold f names s fr).1).cols.length
    ∧ ∀ p ∈ (assignFold f names s fr).2, B ≤ p.2 := by
  intro names
  induction names with
  | nil =>
    intro B s fr hB hfr
    exact ⟨fun i _ => rfl, hB, hfr⟩
  | cons nm rest ih =>
    intro B s fr hB hfr
    obtain ⟨h1, h2, h3⟩ := frameAssign_invariant B s fr nm (f s nm) hB hfr
    obtain ⟨g1, g2, g3⟩ := ih B (frameAssign s fr nm (f s nm)).1
      (frameAssign s fr nm (f s nm)).2 h2 h3
    have e : assignFold f (nm :: rest) s fr
        = assignFold f rest (frameAssign s fr nm (f s nm)).1
            (frameAssign s fr nm (f s nm)).2 := rfl
    refine ⟨?_, ?_, ?_⟩
    · intro i hi
      rw [e, g1 i hi, h1 i hi]
    · rw [e]
      exact g2
    · rw [e]
      exact g3

/-- The whole 2SLS first stage — instrument-data copy, `X.copy()`, and
the in-place fitted-column overwrites — preserves every buffer of the
incoming store. -/
theorem first_stage_store_preserves (s : ColStore) (x_names : List String)
    (xfr wfr zfr : Frame) (i : ℕ) (hi : i < s.cols.length) :
    ((first_stage_store s x_names xfr wfr zfr).1).read i = s.read i := by
  obtain ⟨c1, c2, c3⟩ := copyFrame_invariant (xfr ++ wfr) s
  obtain ⟨a1, _, _⟩ := assignFold_invariant
    (fun s2 nm => fittedColumn ((zfr ++ wfr).map fun p => s.read p.2)
      (s2.read (frameRef xfr nm)))
    x_names s.cols.length (copyFrame (xfr ++ wfr) s).1
    (copyFrame (xfr ++ wfr) s).2 c2 c3
  have e : first_stage_store s x_names xfr wfr zfr
      = assignFold
          (fun s2 nm => fittedColumn ((zfr ++ wfr).map fun p => s.read p.2)
            (s2.read (frameRef xfr nm)))
          x_names (copyFrame (xfr ++ wfr) s).1
          (copyFrame (xfr ++ wfr) s).2 := rfl
  rw [e, a1 i hi, c1 i hi]

/-- A frame zipped from names and a sublist of the references returned by
the extraction has all its references at or above the caller's store
length. -/
theorem zip_refs_fresh (B : ℕ) (names : List String)
    (refs sub : List (Option ℕ)) (hsub : ∀ o ∈ sub, o ∈ refs)
    (h : ∀ j, some j ∈ refs → B ≤ j) :
    ∀ p ∈ List.zip names (sub.filterMap id), B ≤ p.2 := by
  intro p hp
  have h2 := (List.of_mem_zip hp).2
  obtain ⟨oa, hoa, hoaeq⟩ := List.mem_filterMap.mp h2
  simp only [id] at hoaeq
  subst hoaeq
  exact h p.2 (hsub _ hoa)

/-- The `regress` pipeline preserves every buffer of the caller's
store. -/
theorem ols_set_sample_preserves_below (df : Frame) (mask : List Bool)
    (y_name : String) (x_names : List String)
    (a_name cluster shac_x shac_y awt_name : Option String)
    (addcons : Bool) (s : ColStore) (i : ℕ) (h : i < s.cols.length) :
    ((ols_set_sample df mask y_name x_names a_name cluster shac_x shac_y
      awt_name addcons s).1).read i = s.read i := by
  obtain ⟨e1, e2, e3⟩ := set_sample_cols_invariant df mask
    (ols_sample_names y_name x_names a_name cluster shac_x shac_y awt_name) s
  have hfr : ∀ p ∈ List.zip x_names
      ((((set_sample_cols df mask (ols_sample_names y_name x_names a_name
          cluster shac_x shac_y awt_name) s).2.drop 1).take
            x_names.length).filterMap id),
      s.cols.length ≤ p.2 :=
    zip_refs_fresh s.cols.length x_names _ _
      (fun o ho => List.mem_of_mem_drop (List.mem_of_mem_take ho)) e3
  simp only [ols_set_sample]
  by_cases hc : (a_name.isNone && addcons) = true
  · rw [if_pos hc]
    obtain ⟨f1, _, _⟩ := frameAssign_invariant s.cols.length
      (set_sample_cols df mask (ols_sample_names y_name x_names a_name
        cluster shac_x shac_y awt_name) s).1
      (List.zip x_names
        ((((set_sample_cols df mask (ols_sample_names y_name x_names a_name
            cluster shac_x shac_y awt_name) s).2.drop 1).take
              x_names.length).filterMap id))
      "_cons"
      (List.replicate (((set_sample_cols df mask (ols_sample_names y_name
        x_names a_name cluster shac_x shac_y awt_name) s).1.read
          (((set_sample_cols df mask (ols_sample_names y_name x_names a_name
            cluster shac_x shac_y awt_name) s).2.getD 0 none).getD 0)).length)
        1)
      e2 hfr
    rw [f1 i h, e1 i h]
  · rw [if_neg hc]
    exact e1 i h

/-- The `ivreg` pipeline (both IV methods) preserves every buffer of the
caller's store. -/
theorem iv_set_sample_preserves_below (df : Frame) (mask : List Bool)
    (y_name : String) (x_names z_names w_names : List String)
    (a_name cluster shac_x shac_y awt_name : Option String)
    (addcons : Bool) (iv_method : String) (s : ColStore) (i : ℕ)
    (h : i < s.cols.length) :
    ((iv_set_sample df mask y_name x_names z_names w_names a_name cluster
      shac_x shac_y awt_name addcons iv_method s).1).read i = s.read i := by
  obtain ⟨e1, e2, e3⟩ := set_sample_cols_invariant df mask
    (iv_sample_names y_name x_names a_name cluster shac_x shac_y awt_name
      z_names w_names) s
  have hfrw : ∀ p ∈ List.zip w_names
      (((set_sample_cols df mask (iv_sample_names y_name x_names a_name
          cluster shac_x shac_y awt_name z_names w_names) s).2.drop
            (1 + x_names.length + 5 + z_names.length)).filterMap id),
      s.cols.length ≤ p.2 :=
    zip_refs_fresh s.cols.length w_names _ _
      (fun o ho => List.mem_of_mem_drop ho) e3
  obtain ⟨f1, f2, _⟩ := frameAssign_invariant s.cols.length
    (set_sample_cols df mask (iv_sample_names y_name x_names a_name cluster
      shac_x shac_y awt_name z_names w_names) s).1
    (List.zip w_names
      (((set_sample_cols df mask (iv_sample_names y_name x_names a_name
          cluster shac_x shac_y awt_name z_names w_names) s).2.drop
            (1 + x_names.length + 5 + z_names.length)).filterMap id))
    "_cons"
    (List.replicate (((set_sample_cols df mask (iv_sample_names y_name
      x_names a_name cluster shac_x shac_y awt_name z_names w_names) s).1.read
        (((set_sample_cols df mask (iv_sample_names y_name x_names a_name
          cluster shac_x shac_y awt_name z_names w_names) s).2.getD 0
            none).getD 0)).length) 1)
    e2 hfrw
  simp only [iv_set_sample]
  by_cases hc : (a_name.isNone && addcons) = true
  · rw [if_pos hc]
    by_cases hm : iv_method = "2sls"
    · rw [if_pos hm]
      rw [first_stage_store_preserves _ _ _ _ _ i (lt_of_lt_of_le h f2),
          f1 i h, e1 i h]
    · rw [if_neg hm]
      rw [f1 i h, e1 i h]
  · rw [if_neg hc]
    by_cases hm : iv_method = "2sls"
    · rw [if_pos hm]
      rw [first_stage_store_preserves _ _ _ _ _ i (lt_of_lt_of_le h e2)]
      exact e1 i h
    · rw [if_neg hm]
      exact e1 i h

/-- C9: every `regress` and every `iv_regress` call (either IV method)
leaves the caller's dataset unchanged — every buffer of the caller's
store, covering the outcome, regressor, group, cluster, spatial and
weight columns (and `z`/`w` for IV), reads back the same after the
pipeline, because the Sample Builder extracts `.copy()`s and the later
in-place writes (the constant column, the 2SLS fitted columns) touch only
the fresh copies. -/
theorem sample_builder_preserves_caller (df : Frame) (mask : List Bool)
    (y_name : String) (x_names z_names w_names : List String)
    (a_name cluster shac_x shac_y awt_name : Option String)
    (addcons : Bool) (iv_method : String) (s : ColStore) (i : ℕ)
    (h : i < s.cols.length) :
    ((ols_set_sample df mask y_name x_names a_name cluster shac_x shac_y
      awt_name addcons s).1).read i = s.read i
  ∧ ((iv_set_sample df mask y_name x_names z_names w_names a_name cluster
      shac_x shac_y awt_name addcons iv_method s).1).read i = s.read i :=
  ⟨ols_set_sample_preserves_below df mask y_name x_names a_name cluster
     shac_x shac_y awt_name addcons s i h,
   iv_set_sample_preserves_below df mask y_name x_names z_names w_names
     a_name cluster shac_x shac_y awt_name addcons iv_method s i h⟩

/-- Witness for C9: a five-column caller store, cluster key present,
constant added, 2SLS first stage run; buffer 0 is unchanged. -/
theorem sample_builder_preserves_caller_witness :
    (0 : ℕ) < (ColStore.mk
      [[1, 2], [3, 4], [5, 6], [7, 8], [9, 10]]).cols.length
  ∧ (((ols_set_sample [("y", 0), ("x1", 1), ("z1", 2), ("w1", 3), ("g", 4)]
        [true, false] "y" ["x1"] none (some "g") none none none true
        (ColStore.mk [[1, 2], [3, 4], [5, 6], [7, 8], [9, 10]])).1).read 0
      = (ColStore.mk [[1, 2], [3, 4], [5, 6], [7, 8], [9, 10]]).read 0
  ∧ (((iv_set_sample [("y", 0), ("x1", 1), ("z1", 2), ("w1", 3), ("g", 4)]
        [true, false] "y" ["x1"] ["z1"] ["w1"] none (some "g") none none
        none true "2sls"
        (ColStore.mk [[1, 2], [3, 4], [5, 6], [7, 8], [9, 10]])).1).read 0
      = (ColStore.mk [[1, 2], [3, 4], [5, 6], [7, 8], [9, 10]]).read 0)) :=
  ⟨by decide,
   sample_builder_preserves_caller
     [("y", 0), ("x1", 1), ("z1", 2), ("w1", 3), ("g", 4)] [true, false]
     "y" ["x1"] ["z1"] ["w1"] none (some "g") none none none true "2sls"
     (ColStore.mk [[1, 2], [3, 4], [5, 6], [7, 8], [9, 10]]) 0 (by decide)⟩

end Econtools
